import Mathlib

/-!
# bin2txt (Dotneteer/kliveide, `next-fpga-commented/src/ram/init/bin2txt.c`)

A shallow embedding of the converter that turns a binary file into one line of
`'0'`/`'1'` characters per byte, and the properties of it that the
specification states.

Conventions of the embedding

* a C string is the list of its characters before the terminating NUL;
* a byte read by `fgetc` is a natural number (`0..255` for a real file), `EOF`
  is `none`;
* `int` is 32 bits wide, `unsigned long` 64 bits wide (LP64), `unsigned char`
  8 bits wide;
* behaviour that C leaves undefined (a shift by a negative or too large count,
  writing past the end of `outfile[512]`) is the result `none`.
-/

namespace Bin2txt

/-- A C string: its characters up to, not including, the terminating NUL. -/
abbrev CStr := List Char

/-! ## The pieces of libc that `main` calls -/

/-- The largest `unsigned long` (LP64). -/
def ULONG_MAX : Nat := 2 ^ 64 - 1

/-- The white space of the C locale: space, `\t`, `\n`, `\v`, `\f`, `\r`. -/
def isspace (ch : Char) : Bool :=
  ch.toNat = 32 || (9 ≤ ch.toNat && ch.toNat ≤ 13)

/-- The decimal digits. -/
def isdigit (ch : Char) : Bool :=
  48 ≤ ch.toNat && ch.toNat ≤ 57

/-- The number written by the leading decimal digits of `s`, continuing from `acc`;
it stops in front of the first character that is not a digit. -/
def digitsValue : CStr → Nat → Nat
  | [], acc => acc
  | ch :: rest, acc =>
    if isdigit ch then digitsValue rest (acc * 10 + (ch.toNat - 48)) else acc

/-- The call `strtoul(s, NULL, 10)`: skip white space, take an optional sign, read the
leading decimal digits. No digits give 0, a value above `ULONG_MAX` gives
`ULONG_MAX`, and a minus sign negates the value as an `unsigned long`. -/
def strtoul (s : CStr) : Nat :=
  let s1 := s.dropWhile isspace
  let neg := s1.head? = some '-'
  let s2 := if s1.head? = some '-' ∨ s1.head? = some '+' then s1.drop 1 else s1
  let v := digitsValue s2 0
  if ULONG_MAX < v then ULONG_MAX
  else if neg then (ULONG_MAX + 1 - v) % (ULONG_MAX + 1)
  else v

/-- The call `fgetc(in)` on the bytes that are still to be read: the next byte and the rest,
or `EOF` (`none`) at the end. -/
def fgetc : List Nat → Option Nat × List Nat
  | [] => (none, [])
  | c :: rest => (some c, rest)

/-- The call `ungetc(c, in)`: the byte `c` is the next one to be read. -/
def ungetc (c : Nat) (s : List Nat) : List Nat := c :: s

/-! ## Option parsing (lines 19-34) -/

/-- The variables of the option loop: the index `i` and the globals `coe`, `width`. -/
structure ParseState where
  i : Nat
  coe : Nat
  width : Nat
  deriving DecidableEq, Repr

/-- The loop `for (i = 1; i < argc-1; ++i)` over the arguments `argv[i..argc-2]`
that are still ahead. It ends with `i = argc-1` when they are used up, and
earlier on `break`. The second test assigns `width` before it compares, so a
`break` there leaves `width = 0` behind. -/
def parseLoop : List CStr → Nat → Nat → Nat → ParseState
  | [], i, coe, width => ⟨i, coe, width⟩
  | a :: rest, i, coe, width =>
    if a = "-coe".toList ∧ coe = 0 then
      parseLoop rest (i + 1) 1 width
    else if a.head? = some '-' then
      let width1 := strtoul (a.drop 1) % 256
      if width1 ≠ 0 then
        parseLoop rest (i + 1) coe (if 8 < width1 then 8 else width1)
      else ⟨i, coe, width1⟩
    else ⟨i, coe, width⟩

/-- The arguments in option position, `argv[1..argc-2]`. -/
def optionArgs (argv : List CStr) : List CStr := (argv.drop 1).dropLast

/-- The state after the option loop, started with `i = 1`, `coe = 0`, `width = 8`. -/
def parseArgs (argv : List CStr) : ParseState := parseLoop (optionArgs argv) 1 0 8

/-- The test of line 37 fails: the run goes on to open the files. -/
def parseOk (argv : List CStr) : Bool :=
  !(decide (argv.length < 2) || decide ((parseArgs argv).i ≠ argv.length - 1))

/-! ## The bit expander (lines 59-85) -/

/-- The character written for the mask `i` and the byte `c`: `(i & c) ? '1' : '0'`. -/
def bitChar (i c : Nat) : Char := if i &&& c ≠ 0 then '1' else '0'

/-- The loop `for (i = mask; i; i >>= 1) fputc(...)`: the characters it writes
for the byte `c`, started at the mask `i`. -/
def bitLoop (c : Nat) (i : Nat) : List Char :=
  if i = 0 then []
  else bitChar i c :: bitLoop c (i >>> 1)
termination_by i
decreasing_by
  simp only [Nat.shiftRight_eq_div_pow]
  omega

/-- The initial mask `1 << (width-1)`. `width` is an `unsigned char` promoted to
`int`: the shift is defined for the counts `0..30` only. -/
def initialMask (width : Nat) : Option Nat :=
  if 1 ≤ width ∧ width - 1 ≤ 30 then some (1 <<< (width - 1)) else none

/-- The characters written for one byte (lines 67-68). -/
def emitBits (width c : Nat) : Option (List Char) :=
  (initialMask width).map (bitLoop c)

/-- Lines 70-81: in coe mode one more byte is read; at `EOF` the separator is
`';'`, otherwise it is `','` and the byte is pushed back. -/
def separator (coe : Nat) (s : List Nat) : List Char × List Nat :=
  if coe ≠ 0 then
    match fgetc s with
    | (none, s1) => ([';'], s1)
    | (some c, s1) => ([','], ungetc c s1)
  else ([], s)

/-- The loop `while ((c = fgetc(in)) != EOF)` (lines 65-85): the characters
written for the bytes `inp` that are still to be read. -/
def copyLoop (coe width : Nat) (inp : List Nat) : Option (List Char) :=
  match h : fgetc inp with
  | (none, _) => some []
  | (some c, in1) =>
    match emitBits width c with
    | none => none
    | some bits =>
      (copyLoop coe width (separator coe in1).2).map
        (fun rest => bits ++ (separator coe in1).1 ++ ['\r', '\n'] ++ rest)
termination_by inp.length
decreasing_by
  have hsep : (separator coe in1).2 = in1 := by
    unfold separator
    split
    · cases in1 <;> simp [fgetc, ungetc]
    · rfl
  rw [hsep]
  cases inp with
  | nil => simp [fgetc] at h
  | cons a t =>
    simp only [fgetc, Prod.mk.injEq] at h
    rw [← h.2]
    simp

/-- The two lines written first in coe mode (lines 61-62). -/
def coeHeader : List Char :=
  "memory_initialization_radix=2;\r\n".toList ++ "memory_initialization_vector=\r\n".toList

/-- Everything written to `out` (lines 59-85) for the input bytes `inp`. -/
def transform (coe width : Nat) (inp : List Nat) : Option (List Char) :=
  (copyLoop coe width inp).map (fun body => (if coe ≠ 0 then coeHeader else []) ++ body)

/-! ## The whole run -/

/-- The two streams of a run: `in` and `out`. -/
inductive Handle where
  | src
  | dst
  deriving DecidableEq, Repr

/-- A call on the file system: `fopen(path, "rb")` (`write = false`),
`fopen(path, "wb")` (`write = true`), `fclose`. -/
inductive Call where
  | fopen (path : CStr) (write : Bool)
  | fclose (h : Handle)
  deriving DecidableEq, Repr

/-- What a run can see and change: the files by path, the paths that cannot be
opened for writing, what was printed, the streams that are open, and the calls
on the file system made so far, in order. -/
structure World where
  files : List (CStr × List Nat)
  unwritable : List CStr
  stdout : List Char
  handles : List Handle
  log : List Call
  deriving DecidableEq

/-- The text of line 39. -/
def usageText : List Char := "bin2txt [-coe] [-width] file\n".toList

/-- The text of line 45 for the name `a`. -/
def notFoundText (a : CStr) : List Char :=
  "File \"".toList ++ a ++ "\" not found\n".toList

/-- The text of line 54 for the name `a`. -/
def noGoodText (a : CStr) : List Char :=
  "Output file \"".toList ++ a ++ "\" no good\n".toList

/-- The suffix of line 50. -/
def suffix (coe : Nat) : CStr := if coe ≠ 0 then ".coe".toList else ".txt".toList

/-- The function `main`: the exit status and the world it leaves, or `none` when
the run meets undefined behaviour. A file can be opened for reading when it is
among `files`; opening for writing creates or empties the file. In order: the
usage check (lines 37-41), opening the source (43-47), building the output name
in `outfile[512]` (49-50), opening the destination (52-57), writing (59-85),
closing both streams and returning 0 (87-90). -/
def main (argv : List CStr) (w : World) : Option (Nat × World) :=
  let argc := argv.length
  let st := parseArgs argv
  if argc < 2 ∨ st.i ≠ argc - 1 then
    some (0, { w with stdout := w.stdout ++ usageText })
  else
    let path := argv.getLastD []
    let w1 := { w with log := w.log ++ [Call.fopen path false] }
    match w.files.lookup path with
    | none => some (0, { w1 with stdout := w1.stdout ++ notFoundText (argv.getD 1 []) })
    | some content =>
      let w2 := { w1 with handles := Handle.src :: w1.handles }
      if 512 < path.length + 4 + 1 then none
      else
        let outfile := path ++ suffix st.coe
        let w3 := { w2 with log := w2.log ++ [Call.fopen outfile true] }
        if outfile ∈ w.unwritable then
          some (0, { w3 with stdout := w3.stdout ++ noGoodText outfile,
                             handles := w3.handles.erase Handle.src,
                             log := w3.log ++ [Call.fclose Handle.src] })
        else
          let w4 := { w3 with files := (outfile, []) :: w3.files,
                              handles := Handle.dst :: w3.handles }
          match transform st.coe st.width content with
          | none => none
          | some text =>
            some (0, { w4 with files := (outfile, text.map Char.toNat) :: w3.files,
                               handles := (w4.handles.erase Handle.src).erase Handle.dst,
                               log := w4.log ++ [Call.fclose Handle.src,
                                                 Call.fclose Handle.dst] })

/-! ## The specification's vocabulary -/

/-- The bits of `c` at the positions `w-1` down to `0`, as characters. -/
def bitString : Nat → Nat → List Char
  | 0, _ => []
  | w + 1, c => (if c.testBit w then '1' else '0') :: bitString w c

/-- A string of `'0'`/`'1'` read as a binary number, most significant bit first. -/
def decodeBits (s : List Char) : Nat :=
  s.foldl (fun acc ch => 2 * acc + (if ch = '1' then 1 else 0)) 0

/-- The text `s` starts with a number as `strtoul` reads one: after white space
and an optional sign comes a decimal digit. -/
def hasNumber (s : CStr) : Bool :=
  let s1 := s.dropWhile isspace
  let s2 := if s1.head? = some '-' ∨ s1.head? = some '+' then s1.drop 1 else s1
  match s2.head? with
  | some d => isdigit d
  | none => false

/-! ## The bit loop -/

theorem bitLoop_zero (c : Nat) : bitLoop c 0 = [] := by
  rw [bitLoop]
  simp

theorem bitLoop_pos (c i : Nat) (hi : i ≠ 0) :
    bitLoop c i = bitChar i c :: bitLoop c (i >>> 1) := by
  rw [bitLoop]
  simp [hi]

theorem bitChar_two_pow (n c : Nat) :
    bitChar (2 ^ n) c = (if c.testBit n then '1' else '0') := by
  unfold bitChar
  rw [Nat.two_pow_and]
  cases c.testBit n <;> simp

/-- Started at the mask `2 ^ n` the loop writes the bits `n` down to `0`. -/
theorem bitLoop_two_pow (c n : Nat) : bitLoop c (2 ^ n) = bitString (n + 1) c := by
  induction n with
  | zero =>
    rw [bitLoop_pos c (2 ^ 0) (by decide), bitChar_two_pow]
    have h : (2 ^ 0) >>> 1 = 0 := by decide
    rw [h, bitLoop_zero]
    rfl
  | succ n ih =>
    have hne : 2 ^ (n + 1) ≠ 0 := by positivity
    rw [bitLoop_pos c _ hne, bitChar_two_pow]
    have h : (2 ^ (n + 1)) >>> 1 = 2 ^ n := by
      rw [Nat.shiftRight_eq_div_pow, pow_succ]
      simp
    rw [h, ih]
    rfl

theorem initialMask_eq (w : Nat) (h1 : 1 ≤ w) (h8 : w ≤ 8) :
    initialMask w = some (2 ^ (w - 1)) := by
  unfold initialMask
  rw [if_pos ⟨h1, by omega⟩, Nat.one_shiftLeft]

/-- For the widths 1 to 8 the expander writes the bits `w-1` down to `0`. -/
theorem emitBits_eq (w c : Nat) (h1 : 1 ≤ w) (h8 : w ≤ 8) :
    emitBits w c = some (bitString w c) := by
  unfold emitBits
  rw [initialMask_eq w h1 h8, Option.map_some', bitLoop_two_pow]
  congr 2
  omega

theorem bitString_length (w c : Nat) : (bitString w c).length = w := by
  induction w with
  | zero => rfl
  | succ w ih => simp [bitString, ih]

theorem bitString_getElem? (w c k : Nat) (hk : k < w) :
    (bitString w c)[k]? = some (if c.testBit (w - 1 - k) then '1' else '0') := by
  induction w generalizing k with
  | zero => omega
  | succ w ih =>
    cases k with
    | zero => simp [bitString]
    | succ k =>
      have hidx : w + 1 - 1 - (k + 1) = w - 1 - k := by omega
      rw [bitString, List.getElem?_cons_succ, ih k (by omega), hidx]

theorem bitString_mem (w c : Nat) (ch : Char) (h : ch ∈ bitString w c) :
    ch = '0' ∨ ch = '1' := by
  induction w with
  | zero => simp [bitString] at h
  | succ w ih =>
    rw [bitString, List.mem_cons] at h
    rcases h with h | h
    · rw [h]
      split <;> simp
    · exact ih h

theorem foldl_bitString (w c acc : Nat) :
    (bitString w c).foldl (fun acc ch => 2 * acc + (if ch = '1' then 1 else 0)) acc
      = acc * 2 ^ w + c % 2 ^ w := by
  induction w generalizing acc with
  | zero => simp [bitString, Nat.mod_one]
  | succ w ih =>
    rw [bitString, List.foldl_cons, ih, Nat.mod_pow_succ, Nat.testBit_to_div_mod]
    by_cases hb : c / 2 ^ w % 2 = 1
    · simp [hb]
      ring
    · have h0 : c / 2 ^ w % 2 = 0 := by omega
      simp [h0]
      ring

theorem decodeBits_bitString (w c : Nat) : decodeBits (bitString w c) = c % 2 ^ w := by
  unfold decodeBits
  rw [foldl_bitString]
  simp

/-! ## The copy loop -/

theorem separator_stream (coe : Nat) (s : List Nat) : (separator coe s).2 = s := by
  unfold separator
  split
  · cases s <;> simp [fgetc, ungetc]
  · rfl

theorem separator_text (s : List Nat) : (separator 0 s).1 = [] := by
  simp [separator]

theorem separator_eof (coe : Nat) (h : coe ≠ 0) : (separator coe []).1 = [';'] := by
  simp [separator, fgetc, h]

theorem separator_more (coe c : Nat) (s : List Nat) (h : coe ≠ 0) :
    (separator coe (c :: s)).1 = [','] := by
  simp [separator, fgetc, h]

theorem copyLoop_nil (coe w : Nat) : copyLoop coe w [] = some [] := by
  rw [copyLoop]
  simp [fgetc]

theorem copyLoop_cons (coe w c : Nat) (rest : List Nat) (bits : List Char)
    (h : emitBits w c = some bits) :
    copyLoop coe w (c :: rest) =
      (copyLoop coe w rest).map
        (fun r => bits ++ (separator coe rest).1 ++ ['\r', '\n'] ++ r) := by
  rw [copyLoop]
  simp [fgetc, h, separator_stream]

/-- In text mode the loop writes one line per byte. -/
theorem copyLoop_text (w : Nat) (h1 : 1 ≤ w) (h8 : w ≤ 8) (inp : List Nat) :
    copyLoop 0 w inp =
      some (inp.map (fun c => bitString w c ++ ['\r', '\n'])).flatten := by
  induction inp with
  | nil => simp [copyLoop_nil]
  | cons c rest ih =>
    rw [copyLoop_cons 0 w c rest _ (emitBits_eq w c h1 h8), ih, separator_text]
    simp

/-- In coe mode every line but the last ends in a comma, the last in a semicolon. -/
theorem copyLoop_coe (coe w : Nat) (hc : coe ≠ 0) (h1 : 1 ≤ w) (h8 : w ≤ 8)
    (init : List Nat) (last : Nat) :
    copyLoop coe w (init ++ [last]) =
      some ((init.map (fun b => bitString w b ++ [',', '\r', '\n'])).flatten
        ++ (bitString w last ++ [';', '\r', '\n'])) := by
  induction init with
  | nil =>
    rw [List.nil_append, copyLoop_cons coe w last [] _ (emitBits_eq w last h1 h8),
      copyLoop_nil, separator_eof coe hc]
    simp
  | cons c rest ih =>
    rw [List.cons_append, copyLoop_cons coe w c _ _ (emitBits_eq w c h1 h8), ih]
    cases rest with
    | nil =>
      rw [List.nil_append, separator_more coe last [] hc]
      simp
    | cons d rest =>
      rw [List.cons_append, separator_more coe d _ hc]
      simp

theorem length_flatten_lines (n : Nat) (inp : List Nat) (f : Nat → List Char)
    (hf : ∀ c, (f c).length = n) : (inp.map f).flatten.length = inp.length * n := by
  induction inp with
  | nil => simp
  | cons c rest ih =>
    rw [List.map_cons, List.flatten_cons, List.length_append, ih, hf, List.length_cons]
    ring

/-! ## The option loop -/

theorem optionArgs_length (argv : List CStr) :
    (optionArgs argv).length = argv.length - 2 := by
  simp only [optionArgs, List.length_dropLast, List.length_drop]
  omega

theorem optionArgs_getElem? (argv : List CStr) (k : Nat) (hk1 : 1 ≤ k)
    (hk : k + 1 < argv.length) : (optionArgs argv)[k - 1]? = argv[k]? := by
  unfold optionArgs
  rw [List.dropLast_eq_take, List.getElem?_take_of_lt, List.getElem?_drop]
  · congr 1
    omega
  · simp only [List.length_drop]
    omega

theorem strtoul_coe : strtoul ("-coe".toList.drop 1) % 256 = 0 := by decide

theorem parseLoop_nil (i coe width : Nat) : parseLoop [] i coe width = ⟨i, coe, width⟩ := rfl

/-- The first test of the loop body succeeds. -/
theorem parseLoop_coe (rest : List CStr) (i width : Nat) :
    parseLoop ("-coe".toList :: rest) i 0 width = parseLoop rest (i + 1) 1 width := by
  rw [parseLoop]
  simp

/-- The second test of the loop body succeeds. -/
theorem parseLoop_width (a : CStr) (rest : List CStr) (i coe width : Nat)
    (h1 : ¬ (a = "-coe".toList ∧ coe = 0)) (h2 : a.head? = some '-')
    (h3 : strtoul (a.drop 1) % 256 ≠ 0) :
    parseLoop (a :: rest) i coe width =
      parseLoop rest (i + 1) coe
        (if 8 < strtoul (a.drop 1) % 256 then 8 else strtoul (a.drop 1) % 256) := by
  rw [parseLoop]
  simp only [h1, h2, h3, if_false, if_true, ne_eq, not_false_eq_true]

/-- Both tests fail: the loop breaks and `i` stays. -/
theorem parseLoop_break (a : CStr) (rest : List CStr) (i coe width : Nat)
    (h1 : ¬ (a = "-coe".toList ∧ coe = 0))
    (h2 : a.head? ≠ some '-' ∨ strtoul (a.drop 1) % 256 = 0) :
    (parseLoop (a :: rest) i coe width).i = i := by
  rw [parseLoop, if_neg h1]
  by_cases hd : a.head? = some '-'
  · rcases h2 with h2 | h2
    · exact absurd hd h2
    · rw [if_pos hd]
      dsimp only
      rw [if_neg (not_not.mpr h2)]
  · rw [if_neg hd]

/-- One turn of the loop either breaks, leaving `i`, or goes on with `i + 1`
and a width from 1 to 8 or the old one. -/
theorem parseLoop_cons_cases (a : CStr) (rest : List CStr) (i coe width : Nat) :
    (parseLoop (a :: rest) i coe width).i = i ∨
    ∃ coe1 width1, (coe1 = coe ∨ (coe = 0 ∧ coe1 = 1)) ∧
      (width1 = width ∨ (1 ≤ width1 ∧ width1 ≤ 8)) ∧
      parseLoop (a :: rest) i coe width = parseLoop rest (i + 1) coe1 width1 := by
  by_cases h1 : a = "-coe".toList ∧ coe = 0
  · right
    obtain ⟨rfl, rfl⟩ := h1
    exact ⟨1, width, Or.inr ⟨rfl, rfl⟩, Or.inl rfl, parseLoop_coe rest i width⟩
  · by_cases h2 : a.head? = some '-'
    · by_cases h3 : strtoul (a.drop 1) % 256 = 0
      · left
        exact parseLoop_break a rest i coe width h1 (Or.inr h3)
      · right
        refine ⟨coe, _, Or.inl rfl, Or.inr ?_, parseLoop_width a rest i coe width h1 h2 h3⟩
        split <;> omega
    · left
      exact parseLoop_break a rest i coe width h1 (Or.inl h2)

/-- The loop does not get past an argument that fails both tests. -/
theorem parseLoop_stops_at (opts : List CStr) (k : Nat) (a : CStr)
    (ha : opts[k]? = some a) (hcoe : a ≠ "-coe".toList)
    (hrej : a.head? ≠ some '-' ∨ strtoul (a.drop 1) % 256 = 0) :
    ∀ i coe width, (parseLoop opts i coe width).i ≤ i + k := by
  induction opts generalizing k with
  | nil => simp at ha
  | cons b rest ih =>
    intro i coe width
    cases k with
    | zero =>
      rw [List.getElem?_cons_zero, Option.some.injEq] at ha
      subst ha
      rw [parseLoop_break b rest i coe width (fun h => hcoe h.1) hrej]
      omega
    | succ k =>
      rw [List.getElem?_cons_succ] at ha
      rcases parseLoop_cons_cases b rest i coe width with h | ⟨c1, w1, _, _, h⟩
      · omega
      · rw [h]
        have := ih k ha (i + 1) c1 w1
        omega

/-- Once `coe` is set the loop does not get past a `-coe`. -/
theorem parseLoop_coe_again (opts : List CStr) (k : Nat)
    (ha : opts[k]? = some "-coe".toList) :
    ∀ i coe width, coe ≠ 0 → (parseLoop opts i coe width).i ≤ i + k := by
  induction opts generalizing k with
  | nil => simp at ha
  | cons b rest ih =>
    intro i coe width hc
    cases k with
    | zero =>
      rw [List.getElem?_cons_zero, Option.some.injEq] at ha
      subst ha
      rw [parseLoop_break _ rest i coe width (fun h => hc h.2) (Or.inr strtoul_coe)]
      omega
    | succ k =>
      rw [List.getElem?_cons_succ] at ha
      rcases parseLoop_cons_cases b rest i coe width with h | ⟨c1, w1, hc1, _, h⟩
      · omega
      · rw [h]
        have hc1 : c1 ≠ 0 := by
          rcases hc1 with hc1 | hc1
          · rw [hc1]
            exact hc
          · exact absurd hc1.1 hc
        have := ih k ha (i + 1) c1 w1 hc1
        omega

/-- The loop does not get past a second `-coe`. -/
theorem parseLoop_coe_twice (opts : List CStr) (j k : Nat) (hjk : j < k)
    (hj : opts[j]? = some "-coe".toList) (hk : opts[k]? = some "-coe".toList) :
    ∀ i coe width, (parseLoop opts i coe width).i ≤ i + k := by
  induction opts generalizing j k with
  | nil => simp at hj
  | cons b rest ih =>
    intro i coe width
    cases k with
    | zero => omega
    | succ k =>
      rw [List.getElem?_cons_succ] at hk
      cases j with
      | zero =>
        rw [List.getElem?_cons_zero, Option.some.injEq] at hj
        subst hj
        by_cases hc : coe = 0
        · subst hc
          rw [parseLoop_coe]
          have := parseLoop_coe_again rest k hk (i + 1) 1 width (by decide)
          omega
        · rw [parseLoop_break _ rest i coe width (fun h => hc h.2) (Or.inr strtoul_coe)]
          omega
      | succ j =>
        rw [List.getElem?_cons_succ] at hj
        rcases parseLoop_cons_cases b rest i coe width with h | ⟨c1, w1, _, _, h⟩
        · omega
        · rw [h]
          have := ih j k (by omega) hj hk (i + 1) c1 w1
          omega

/-- When the loop runs to the end the width it leaves is between 1 and 8. -/
theorem parseLoop_complete_width (opts : List CStr) :
    ∀ i coe width, 1 ≤ width → width ≤ 8 →
      (parseLoop opts i coe width).i = i + opts.length →
      1 ≤ (parseLoop opts i coe width).width ∧ (parseLoop opts i coe width).width ≤ 8 := by
  induction opts with
  | nil =>
    intro i coe width h1 h8 _
    exact ⟨h1, h8⟩
  | cons b rest ih =>
    intro i coe width h1 h8 hi
    rcases parseLoop_cons_cases b rest i coe width with h | ⟨c1, w1, _, hw, h⟩
    · rw [h, List.length_cons] at hi
      omega
    · rw [h] at hi ⊢
      have hw1 : 1 ≤ w1 ∧ w1 ≤ 8 := by
        rcases hw with hw | hw
        · rw [hw]
          exact ⟨h1, h8⟩
        · exact hw
      exact ih (i + 1) c1 w1 hw1.1 hw1.2 (by rw [hi, List.length_cons]; omega)

/-- Width options only: the loop runs to the end and leaves `coe` as it was. -/
theorem parseLoop_widths (opts : List CStr)
    (hvalid : ∀ a ∈ opts, a ≠ "-coe".toList ∧ a.head? = some '-' ∧
      strtoul (a.drop 1) % 256 ≠ 0) :
    ∀ i coe width, (parseLoop opts i coe width).i = i + opts.length ∧
      (parseLoop opts i coe width).coe = coe := by
  induction opts with
  | nil =>
    intro i coe width
    exact ⟨rfl, rfl⟩
  | cons b rest ih =>
    intro i coe width
    obtain ⟨hb1, hb2, hb3⟩ := hvalid b (List.mem_cons_self b rest)
    rw [parseLoop_width b rest i coe width (fun h => hb1 h.1) hb2 hb3]
    have := ih (fun a ha => hvalid a (List.mem_cons_of_mem b ha)) (i + 1) coe
      (if 8 < strtoul (b.drop 1) % 256 then 8 else strtoul (b.drop 1) % 256)
    rw [List.length_cons]
    exact ⟨by omega, this.2⟩

/-- One `-coe` among width options: the loop runs to the end and sets `coe`. -/
theorem parseLoop_one_coe (opts : List CStr)
    (hone : opts.count "-coe".toList = 1)
    (hvalid : ∀ a ∈ opts, a ≠ "-coe".toList →
      a.head? = some '-' ∧ strtoul (a.drop 1) % 256 ≠ 0) :
    ∀ i width, (parseLoop opts i 0 width).i = i + opts.length ∧
      (parseLoop opts i 0 width).coe = 1 := by
  induction opts with
  | nil => simp at hone
  | cons b rest ih =>
    intro i width
    by_cases hb : b = "-coe".toList
    · subst hb
      rw [List.count_cons_self] at hone
      have hnot : "-coe".toList ∉ rest := List.count_eq_zero.mp (by omega)
      rw [parseLoop_coe]
      have := parseLoop_widths rest (fun a ha =>
        have hne : a ≠ "-coe".toList := fun h => hnot (h ▸ ha)
        ⟨hne, hvalid a (List.mem_cons_of_mem _ ha) hne⟩) (i + 1) 1 width
      rw [List.length_cons]
      exact ⟨by omega, this.2⟩
    · obtain ⟨hb2, hb3⟩ := hvalid b (List.mem_cons_self b rest) hb
      rw [parseLoop_width b rest i 0 width (fun h => hb h.1) hb2 hb3]
      rw [List.count_cons_of_ne (fun h => hb h.symm)] at hone
      have := ih hone (fun a ha => hvalid a (List.mem_cons_of_mem b ha)) (i + 1)
        (if 8 < strtoul (b.drop 1) % 256 then 8 else strtoul (b.drop 1) % 256)
      rw [List.length_cons]
      exact ⟨by omega, this.2⟩

/-- The test of line 37 holds: the run prints the usage text and exits. -/
theorem main_usage (argv : List CStr) (w : World)
    (h : argv.length < 2 ∨ (parseArgs argv).i ≠ argv.length - 1) :
    main argv w = some (0, { w with stdout := w.stdout ++ usageText }) := by
  unfold main
  simp only [if_pos h]

/-- The option loop stopped at or before the option at position `k`. -/
theorem main_usage_of_stop (argv : List CStr) (w : World) (k : Nat)
    (hk : k + 1 < argv.length) (hstop : (parseArgs argv).i ≤ k) :
    main argv w = some (0, { w with stdout := w.stdout ++ usageText }) :=
  main_usage argv w (Or.inr (by omega))

theorem parseArgs_stops_at (argv : List CStr) (k : Nat) (a : CStr) (hk1 : 1 ≤ k)
    (hk : k + 1 < argv.length) (ha : argv[k]? = some a) (hcoe : a ≠ "-coe".toList)
    (hrej : a.head? ≠ some '-' ∨ strtoul (a.drop 1) % 256 = 0) :
    (parseArgs argv).i ≤ k := by
  have h := parseLoop_stops_at (optionArgs argv) (k - 1) a
    (by rw [optionArgs_getElem? argv k hk1 hk, ha]) hcoe hrej 1 0 8
  unfold parseArgs
  omega

theorem parseOk_iff (argv : List CStr) :
    parseOk argv = true ↔ ¬ (argv.length < 2 ∨ (parseArgs argv).i ≠ argv.length - 1) := by
  simp [parseOk]

/-- No number after the dash: `strtoul` returns 0. -/
theorem strtoul_of_not_hasNumber (s : CStr) (h : hasNumber s = false) : strtoul s = 0 := by
  unfold hasNumber at h
  unfold strtoul
  dsimp only at h ⊢
  generalize (if (s.dropWhile isspace).head? = some '-' ∨
      (s.dropWhile isspace).head? = some '+' then (s.dropWhile isspace).drop 1
      else s.dropWhile isspace) = s2 at h ⊢
  have hv : digitsValue s2 0 = 0 := by
    cases s2 with
    | nil => rfl
    | cons d t =>
      simp only [List.head?_cons] at h
      simp [digitsValue, h]
  rw [hv]
  simp [ULONG_MAX]

/-- A run that gets through: both files open, the text is written, both streams
are closed. -/
theorem main_run (argv : List CStr) (w : World) (content : List Nat) (text : List Char)
    (hok : parseOk argv = true)
    (hin : w.files.lookup (argv.getLastD []) = some content)
    (hlen : (argv.getLastD []).length + 4 + 1 ≤ 512)
    (hout : argv.getLastD [] ++ suffix (parseArgs argv).coe ∉ w.unwritable)
    (ht : transform (parseArgs argv).coe (parseArgs argv).width content = some text) :
    main argv w = some (0, { w with
      files := (argv.getLastD [] ++ suffix (parseArgs argv).coe, text.map Char.toNat)
        :: w.files,
      log := w.log ++ [Call.fopen (argv.getLastD []) false,
        Call.fopen (argv.getLastD [] ++ suffix (parseArgs argv).coe) true,
        Call.fclose Handle.src, Call.fclose Handle.dst] }) := by
  rw [parseOk_iff] at hok
  unfold main
  simp only [if_neg hok, hin, if_neg (not_lt.mpr hlen), if_neg hout, ht]
  simp

/-- The mask after `k` right shifts: not zero before the `w`-th, zero at the `w`-th. -/
theorem mask_shifts (w : Nat) (h1 : 1 ≤ w) (h8 : w ≤ 8) :
    (∀ k, k < w → (1 <<< (w - 1)) >>> k ≠ 0) ∧ (1 <<< (w - 1)) >>> w = 0 := by
  interval_cases w <;> decide

theorem bitLoop_length (c w : Nat) (h1 : 1 ≤ w) :
    (bitLoop c (1 <<< (w - 1))).length = w := by
  rw [Nat.one_shiftLeft, bitLoop_two_pow, bitString_length]
  omega

theorem parseArgs_width_range (argv : List CStr) (hok : parseOk argv = true) :
    1 ≤ (parseArgs argv).width ∧ (parseArgs argv).width ≤ 8 := by
  rw [parseOk_iff] at hok
  have hlen := optionArgs_length argv
  exact parseLoop_complete_width (optionArgs argv) 1 0 8 (by decide) (by decide)
    (by unfold parseArgs at hok; omega)

/-! ## The claims on the bit expander -/

/-- C1, as amended: for every byte `v` and every width `w` from 1 to 8 the
emitted bit string, read as a binary number with the most significant bit first,
is `v mod 2 ^ w`, the low `w` bits of `v`; for `w = 4` and `v = 0xA5` the
emitted string is `"0101"`. -/
theorem emitBits_decode_low_bits (v w : Nat) (h1 : 1 ≤ w) (h8 : w ≤ 8) :
    (emitBits w v).map decodeBits = some (v % 2 ^ w) ∧
    emitBits 4 0xA5 = some "0101".toList := by
  constructor
  · rw [emitBits_eq w v h1 h8, Option.map_some', decodeBits_bitString]
  · rw [emitBits_eq 4 0xA5 (by decide) (by decide)]
    decide

theorem emitBits_decode_low_bits_witness :
    1 ≤ 3 ∧ 3 ≤ 8 ∧
    (emitBits 3 0xA5).map decodeBits = some (0xA5 % 2 ^ 3) ∧
    emitBits 4 0xA5 = some "0101".toList :=
  ⟨by decide, by decide, emitBits_decode_low_bits 0xA5 3 (by decide) (by decide)⟩

/-- C1, as stated, fails at `v = 0xA5`, `w = 4`: the emitted string is not
`"1010"`, and it decodes to 5, not to the top four bits `0xA5 >> 4 = 10`. -/
theorem emitBits_decode_top_bits_fails :
    (emitBits 4 0xA5).map decodeBits = some 5 ∧
    (emitBits 4 0xA5).map decodeBits ≠ some (0xA5 >>> (8 - 4)) ∧
    emitBits 4 0xA5 ≠ some "1010".toList := by
  rw [emitBits_eq 4 0xA5 (by decide) (by decide)]
  decide

/-- C2: for every byte `c` and every width `w` from 1 to 8 the expander emits
exactly `w` characters, and the `k`-th of them is `'1'` if the bit of `c` at
position `w-1-k` is set and `'0'` otherwise. -/
theorem emitBits_bit_selection (c w : Nat) (h1 : 1 ≤ w) (h8 : w ≤ 8) :
    ∃ s, emitBits w c = some s ∧ s.length = w ∧
      ∀ k, k < w → s[k]? = some (if c.testBit (w - 1 - k) then '1' else '0') :=
  ⟨bitString w c, emitBits_eq w c h1 h8, bitString_length w c,
    fun k hk => bitString_getElem? w c k hk⟩

theorem emitBits_bit_selection_witness :
    1 ≤ 3 ∧ 3 ≤ 8 ∧
    ∃ s, emitBits 3 0xA5 = some s ∧ s.length = 3 ∧
      ∀ k, k < 3 → s[k]? = some (if (0xA5).testBit (3 - 1 - k) then '1' else '0') :=
  ⟨by decide, by decide, emitBits_bit_selection 0xA5 3 (by decide) (by decide)⟩

/-- C3: for every byte `v` and width 8 the emitted string is the 8-character
binary representation of `v`, most significant bit first: its `k`-th character
shows bit `7-k`, decoding it gives `v` back, distinct bytes give distinct
strings, and `0b10110010` gives `"10110010"`. -/
theorem emitBits_width_eight (v v2 : Nat) (hv : v < 256) (hv2 : v2 < 256) :
    (∃ s, emitBits 8 v = some s ∧ s.length = 8 ∧
      (∀ k, k < 8 → s[k]? = some (if v.testBit (7 - k) then '1' else '0')) ∧
      decodeBits s = v) ∧
    (emitBits 8 v = emitBits 8 v2 → v = v2) ∧
    emitBits 8 0b10110010 = some "10110010".toList := by
  have e1 := emitBits_eq 8 v (by decide) (by decide)
  have e2 := emitBits_eq 8 v2 (by decide) (by decide)
  refine ⟨⟨bitString 8 v, e1, bitString_length 8 v, ?_, ?_⟩, ?_, ?_⟩
  · intro k hk
    exact bitString_getElem? 8 v k hk
  · rw [decodeBits_bitString]
    exact Nat.mod_eq_of_lt hv
  · intro h
    rw [e1, e2, Option.some.injEq] at h
    have hd := congrArg decodeBits h
    rw [decodeBits_bitString, decodeBits_bitString] at hd
    omega
  · rw [emitBits_eq 8 0b10110010 (by decide) (by decide)]
    decide

theorem emitBits_width_eight_witness :
    0xA5 < 256 ∧ 0x5A < 256 ∧
    (∃ s, emitBits 8 0xA5 = some s ∧ s.length = 8 ∧
      (∀ k, k < 8 → s[k]? = some (if (0xA5).testBit (7 - k) then '1' else '0')) ∧
      decodeBits s = 0xA5) ∧
    (emitBits 8 0xA5 = emitBits 8 0x5A → 0xA5 = 0x5A) ∧
    emitBits 8 0b10110010 = some "10110010".toList :=
  ⟨by decide, by decide, emitBits_width_eight 0xA5 0x5A (by decide) (by decide)⟩

/-! ## The claims on the output format -/

theorem semicolon_not_mem_bitString (w c : Nat) : ';' ∉ bitString w c := by
  intro h
  rcases bitString_mem w c ';' h with h | h <;> exact absurd h (by decide)

/-- C4: in text mode, for every input of `N` bytes and every width `w` from 1 to
8, the output is the concatenation of exactly `N` lines, the `k`-th made of the
`w` characters `'0'`/`'1'` emitted for the `k`-th byte followed by CR LF; its
length is `N * (w + 2)`. -/
theorem transform_text_lines (inp : List Nat) (w : Nat) (h1 : 1 ≤ w) (h8 : w ≤ 8) :
    ∃ lines : List (List Char),
      transform 0 w inp = some lines.flatten ∧
      lines.length = inp.length ∧
      (∀ k (hk : k < inp.length), ∃ bits,
          emitBits w inp[k] = some bits ∧ bits.length = w ∧
          (∀ ch ∈ bits, ch = '0' ∨ ch = '1') ∧
          lines[k]? = some (bits ++ ['\r', '\n'])) ∧
      lines.flatten.length = inp.length * (w + 2) := by
  refine ⟨inp.map (fun c => bitString w c ++ ['\r', '\n']), ?_, ?_, ?_, ?_⟩
  · unfold transform
    rw [copyLoop_text w h1 h8]
    simp
  · simp
  · intro k hk
    refine ⟨bitString w inp[k], emitBits_eq w _ h1 h8, bitString_length w _,
      fun ch hch => bitString_mem w _ ch hch, ?_⟩
    simp [hk]
  · apply length_flatten_lines
    intro c
    simp [bitString_length]

theorem transform_text_lines_witness :
    1 ≤ 4 ∧ 4 ≤ 8 ∧
    ∃ lines : List (List Char),
      transform 0 4 [0x00, 0xFF] = some lines.flatten ∧
      lines.length = [0x00, 0xFF].length ∧
      (∀ k (hk : k < [0x00, 0xFF].length), ∃ bits,
          emitBits 4 [0x00, 0xFF][k] = some bits ∧ bits.length = 4 ∧
          (∀ ch ∈ bits, ch = '0' ∨ ch = '1') ∧
          lines[k]? = some (bits ++ ['\r', '\n'])) ∧
      lines.flatten.length = [0x00, 0xFF].length * (4 + 2) :=
  ⟨by decide, by decide, transform_text_lines [0x00, 0xFF] 4 (by decide) (by decide)⟩

/-- C5: in coe mode, for every non-empty input `init ++ [last]` and every width
`w` from 1 to 8, the output is the two header lines followed by one line per
byte in order: the bits of the byte and `",\r\n"` for the bytes of `init`, the
bits and `";\r\n"` for `last`. The bits are those the expander emits, the
lookahead leaves the stream as it found it, the only `';'` after the header is
the one on the last line, and `[0x01, 0x02]` at width 8 gives the lines
`00000001,` and `00000010;`. -/
theorem transform_coe_lines (init : List Nat) (last w : Nat) (h1 : 1 ≤ w) (h8 : w ≤ 8) :
    transform 1 w (init ++ [last]) = some (
      "memory_initialization_radix=2;\r\n".toList ++
      "memory_initialization_vector=\r\n".toList ++
      (init.map (fun b => bitString w b ++ ",\r\n".toList)).flatten ++
      (bitString w last ++ ";\r\n".toList)) ∧
    (∀ b, emitBits w b = some (bitString w b)) ∧
    (∀ s, (separator 1 s).2 = s) ∧
    ';' ∉ (init.map (fun b => bitString w b ++ ",\r\n".toList)).flatten ∧
    (bitString w last ++ ";\r\n".toList).count ';' = 1 ∧
    transform 1 8 [0x01, 0x02] = some (
      "memory_initialization_radix=2;\r\n".toList ++
      "memory_initialization_vector=\r\n".toList ++
      "00000001,\r\n".toList ++ "00000010;\r\n".toList) := by
  have hcomma : ",\r\n".toList = [',', '\r', '\n'] := rfl
  have hsemi : ";\r\n".toList = [';', '\r', '\n'] := rfl
  have hshape : ∀ (i : List Nat) (l v : Nat), 1 ≤ v → v ≤ 8 →
      transform 1 v (i ++ [l]) = some (
        "memory_initialization_radix=2;\r\n".toList ++
        "memory_initialization_vector=\r\n".toList ++
        (i.map (fun b => bitString v b ++ ",\r\n".toList)).flatten ++
        (bitString v l ++ ";\r\n".toList)) := by
    intro i l v hv1 hv8
    unfold transform
    rw [copyLoop_coe 1 v (by decide) hv1 hv8, hcomma, hsemi]
    simp [coeHeader]
  refine ⟨hshape init last w h1 h8, fun b => emitBits_eq w b h1 h8,
    fun s => separator_stream 1 s, ?_, ?_, ?_⟩
  · intro hmem
    rw [List.mem_flatten] at hmem
    obtain ⟨l, hl, hin⟩ := hmem
    rw [List.mem_map] at hl
    obtain ⟨b, _, rfl⟩ := hl
    rw [List.mem_append] at hin
    rcases hin with hin | hin
    · exact semicolon_not_mem_bitString w b hin
    · exact absurd hin (by decide)
  · rw [List.count_append, List.count_eq_zero.mpr (semicolon_not_mem_bitString w last)]
    decide
  · have h := hshape [0x01] 0x02 8 (by decide) (by decide)
    rw [List.singleton_append] at h
    rw [h]
    decide

theorem transform_coe_lines_witness :
    1 ≤ 4 ∧ 4 ≤ 8 ∧
    (transform 1 4 ([0xA5, 0x00] ++ [0xFF]) = some (
      "memory_initialization_radix=2;\r\n".toList ++
      "memory_initialization_vector=\r\n".toList ++
      ([0xA5, 0x00].map (fun b => bitString 4 b ++ ",\r\n".toList)).flatten ++
      (bitString 4 0xFF ++ ";\r\n".toList)) ∧
    (∀ b, emitBits 4 b = some (bitString 4 b)) ∧
    (∀ s, (separator 1 s).2 = s) ∧
    ';' ∉ ([0xA5, 0x00].map (fun b => bitString 4 b ++ ",\r\n".toList)).flatten ∧
    (bitString 4 0xFF ++ ";\r\n".toList).count ';' = 1 ∧
    transform 1 8 [0x01, 0x02] = some (
      "memory_initialization_radix=2;\r\n".toList ++
      "memory_initialization_vector=\r\n".toList ++
      "00000001,\r\n".toList ++ "00000010;\r\n".toList)) :=
  ⟨by decide, by decide, transform_coe_lines [0xA5, 0x00] 0xFF 4 (by decide) (by decide)⟩

/-! ## The claims on the options -/

/-- C6, at the failing inputs: `-257` is stored in the `unsigned char` as 1
before the clamp is applied, so parsing succeeds with width 1 and a byte is
written as a single bit character, where the claim gives `min(257, 8) = 8`;
`-256` is stored as 0 and the run ends with the usage text. `-12`, below 256,
is clamped to 8. -/
theorem width_wraps_before_clamp :
    parseOk ["bin2txt".toList, "-257".toList, "f".toList] = true ∧
    (parseArgs ["bin2txt".toList, "-257".toList, "f".toList]).width = 1 ∧
    main ["bin2txt".toList, "-257".toList, "f".toList]
        ⟨[("f".toList, [0xFF])], [], [], [], []⟩ =
      some (0, ⟨[("f.txt".toList, "1\r\n".toList.map Char.toNat), ("f".toList, [0xFF])],
        [], [], [],
        [Call.fopen "f".toList false, Call.fopen "f.txt".toList true,
          Call.fclose Handle.src, Call.fclose Handle.dst]⟩) ∧
    parseOk ["bin2txt".toList, "-256".toList, "f".toList] = false ∧
    (parseArgs ["bin2txt".toList, "-12".toList, "f".toList]).width = 8 := by
  refine ⟨by decide, by decide, ?_, by decide, by decide⟩
  have ht : transform 0 1 [0xFF] = some "1\r\n".toList := by
    unfold transform
    rw [copyLoop_text 1 (by decide) (by decide)]
    decide
  rw [main_run ["bin2txt".toList, "-257".toList, "f".toList] _ [0xFF] "1\r\n".toList
    (by decide) (by decide) (by decide) (by decide) ht]
  decide

/-- C7: when `-0` stands at a position before the final argument, the run ends
with status 0 and the usage text, and leaves everything else as it was: no file
is opened, created or written and no call on the file system is made. -/
theorem width_zero_rejected (argv : List CStr) (w : World) (k : Nat) (hk1 : 1 ≤ k)
    (hk : k + 1 < argv.length) (h0 : argv[k]? = some "-0".toList) :
    main argv w = some (0, { w with stdout := w.stdout ++ usageText }) :=
  main_usage_of_stop argv w k hk
    (parseArgs_stops_at argv k "-0".toList hk1 hk h0 (by decide) (Or.inr (by decide)))

theorem width_zero_rejected_witness :
    1 ≤ 2 ∧ 2 + 1 < ["bin2txt".toList, "-coe".toList, "-0".toList, "f".toList].length ∧
    ["bin2txt".toList, "-coe".toList, "-0".toList, "f".toList][2]? = some "-0".toList ∧
    main ["bin2txt".toList, "-coe".toList, "-0".toList, "f".toList]
        ⟨[("f".toList, [0xFF])], [], [], [], []⟩ =
      some (0, ⟨[("f".toList, [0xFF])], [], [] ++ usageText, [], []⟩) :=
  ⟨by decide, by decide, by decide,
    width_zero_rejected ["bin2txt".toList, "-coe".toList, "-0".toList, "f".toList]
      ⟨[("f".toList, [0xFF])], [], [], [], []⟩ 2 (by decide) (by decide) (by decide)⟩

/-- C8, as amended: when some argument before the final one is neither exactly
`-coe` nor a dash followed by a number as `strtoul` reads one (white space and a
sign may come first, then at least one decimal digit, and anything may follow
the digits), the run ends with status 0 and the usage text, and leaves
everything else as it was: no file is opened and nothing is transformed. -/
theorem unrecognised_option_rejected (argv : List CStr) (w : World) (k : Nat) (a : CStr)
    (hk1 : 1 ≤ k) (hk : k + 1 < argv.length) (ha : argv[k]? = some a)
    (hcoe : a ≠ "-coe".toList)
    (hnum : ¬ (a.head? = some '-' ∧ hasNumber (a.drop 1) = true)) :
    main argv w = some (0, { w with stdout := w.stdout ++ usageText }) := by
  apply main_usage_of_stop argv w k hk
  apply parseArgs_stops_at argv k a hk1 hk ha hcoe
  by_cases hd : a.head? = some '-'
  · right
    have hn : hasNumber (a.drop 1) = false := by
      cases hh : hasNumber (a.drop 1)
      · rfl
      · exact absurd ⟨hd, hh⟩ hnum
    rw [strtoul_of_not_hasNumber _ hn]
  · left
    exact hd

theorem unrecognised_option_rejected_witness :
    1 ≤ 1 ∧ 1 + 1 < ["bin2txt".toList, "-x5".toList, "-coe".toList, "f".toList].length ∧
    ["bin2txt".toList, "-x5".toList, "-coe".toList, "f".toList][1]? = some "-x5".toList ∧
    "-x5".toList ≠ "-coe".toList ∧
    ¬ ("-x5".toList.head? = some '-' ∧ hasNumber ("-x5".toList.drop 1) = true) ∧
    main ["bin2txt".toList, "-x5".toList, "-coe".toList, "f".toList]
        ⟨[("f".toList, [0xFF])], [], [], [], []⟩ =
      some (0, ⟨[("f".toList, [0xFF])], [], [] ++ usageText, [], []⟩) :=
  ⟨by decide, by decide, by decide, by decide, by decide,
    unrecognised_option_rejected
      ["bin2txt".toList, "-x5".toList, "-coe".toList, "f".toList]
      ⟨[("f".toList, [0xFF])], [], [], [], []⟩ 1 "-x5".toList
      (by decide) (by decide) (by decide) (by decide) (by decide)⟩

/-- C8, as stated, fails for `-5abc`: the argument is neither `-coe` nor a dash
followed only by digits, yet the option loop accepts it as width 5 and the run
opens both files and writes the output instead of printing the usage text. -/
theorem trailing_text_accepted :
    "-5abc".toList ≠ "-coe".toList ∧
    ("-5abc".toList.drop 1).all isdigit = false ∧
    parseOk ["bin2txt".toList, "-5abc".toList, "f".toList] = true ∧
    parseArgs ["bin2txt".toList, "-5abc".toList, "f".toList] = ⟨2, 0, 5⟩ ∧
    main ["bin2txt".toList, "-5abc".toList, "f".toList]
        ⟨[("f".toList, [0xA5])], [], [], [], []⟩ =
      some (0, ⟨[("f.txt".toList, "00101\r\n".toList.map Char.toNat), ("f".toList, [0xA5])],
        [], [], [],
        [Call.fopen "f".toList false, Call.fopen "f.txt".toList true,
          Call.fclose Handle.src, Call.fclose Handle.dst]⟩) ∧
    main ["bin2txt".toList, "-5abc".toList, "f".toList]
        ⟨[("f".toList, [0xA5])], [], [], [], []⟩ ≠
      some (0, ⟨[("f".toList, [0xA5])], [], [] ++ usageText, [], []⟩) := by
  have ht : transform 0 5 [0xA5] = some "00101\r\n".toList := by
    unfold transform
    rw [copyLoop_text 5 (by decide) (by decide)]
    decide
  have hm := main_run ["bin2txt".toList, "-5abc".toList, "f".toList]
    ⟨[("f".toList, [0xA5])], [], [], [], []⟩ [0xA5] "00101\r\n".toList
    (by decide) (by decide) (by decide) (by decide) ht
  refine ⟨by decide, by decide, by decide, by decide, ?_, ?_⟩
  · rw [hm]
    decide
  · rw [hm]
    decide

/-- C9: when `-coe` stands at two positions `j < k` before the final argument,
the option loop stops at the second one at the latest (`i ≤ k`), and the run
ends with status 0 and the usage text, nothing else changed; for
`-coe -coe f` it stops exactly at the second one. When `-coe` occurs exactly
once among the options and every other option is accepted as a width, parsing
succeeds with `coe = 1`. -/
theorem coe_at_most_once (argv : List CStr) (w : World) :
    (∀ j k, 1 ≤ j → j < k → k + 1 < argv.length →
        argv[j]? = some "-coe".toList → argv[k]? = some "-coe".toList →
        (parseArgs argv).i ≤ k ∧
        main argv w = some (0, { w with stdout := w.stdout ++ usageText })) ∧
    (2 ≤ argv.length → (optionArgs argv).count "-coe".toList = 1 →
        (∀ a ∈ optionArgs argv, a ≠ "-coe".toList →
          a.head? = some '-' ∧ strtoul (a.drop 1) % 256 ≠ 0) →
        parseOk argv = true ∧ (parseArgs argv).coe = 1) ∧
    (parseArgs ["bin2txt".toList, "-coe".toList, "-coe".toList, "f".toList]).i = 2 := by
  refine ⟨?_, ?_, by decide⟩
  · intro j k hj hjk hk h1 h2
    have hstop : (parseArgs argv).i ≤ k := by
      have h := parseLoop_coe_twice (optionArgs argv) (j - 1) (k - 1) (by omega)
        (by rw [optionArgs_getElem? argv j hj (by omega), h1])
        (by rw [optionArgs_getElem? argv k (by omega) hk, h2]) 1 0 8
      unfold parseArgs
      omega
    exact ⟨hstop, main_usage_of_stop argv w k hk hstop⟩
  · intro hlen hone hvalid
    have h := parseLoop_one_coe (optionArgs argv) hone hvalid 1 8
    have hl := optionArgs_length argv
    refine ⟨?_, h.2⟩
    rw [parseOk_iff]
    unfold parseArgs
    omega

theorem coe_at_most_once_witness :
    main ["bin2txt".toList, "-coe".toList, "-4".toList, "-coe".toList, "f".toList]
        ⟨[("f".toList, [0xFF])], [], [], [], []⟩ =
      some (0, ⟨[("f".toList, [0xFF])], [], [] ++ usageText, [], []⟩) ∧
    (parseArgs ["bin2txt".toList, "-4".toList, "-coe".toList, "f".toList]).coe = 1 :=
  ⟨((coe_at_most_once
      ["bin2txt".toList, "-coe".toList, "-4".toList, "-coe".toList, "f".toList]
      ⟨[("f".toList, [0xFF])], [], [], [], []⟩).1 1 3
      (by decide) (by decide) (by decide) (by decide) (by decide)).2,
    ((coe_at_most_once ["bin2txt".toList, "-4".toList, "-coe".toList, "f".toList]
      ⟨[], [], [], [], []⟩).2.1 (by decide) (by decide) (by decide)).2⟩

/-- C10: whenever the run gets past the usage check, the width `w` left by the
option loop satisfies `1 ≤ w ≤ 8`; the initial mask `1 << (w-1)` is defined, a
shift by `w-1 ≤ 7`; the mask is not zero after fewer than `w` right shifts and
zero after `w`, so the bit loop makes exactly `w` turns, and it writes `w`
characters for every byte. -/
theorem parsed_width_in_range (argv : List CStr) (hok : parseOk argv = true) :
    1 ≤ (parseArgs argv).width ∧ (parseArgs argv).width ≤ 8 ∧
    (parseArgs argv).width - 1 ≤ 7 ∧
    initialMask (parseArgs argv).width = some (1 <<< ((parseArgs argv).width - 1)) ∧
    (∀ k, k < (parseArgs argv).width → (1 <<< ((parseArgs argv).width - 1)) >>> k ≠ 0) ∧
    (1 <<< ((parseArgs argv).width - 1)) >>> (parseArgs argv).width = 0 ∧
    (∀ c, (bitLoop c (1 <<< ((parseArgs argv).width - 1))).length = (parseArgs argv).width) ∧
    (∀ c, ∃ s, emitBits (parseArgs argv).width c = some s ∧
      s.length = (parseArgs argv).width) := by
  obtain ⟨h1, h8⟩ := parseArgs_width_range argv hok
  have hm := mask_shifts _ h1 h8
  refine ⟨h1, h8, by omega, ?_, hm.1, hm.2, fun c => bitLoop_length c _ h1, ?_⟩
  · rw [initialMask_eq _ h1 h8, Nat.one_shiftLeft]
  · intro c
    exact ⟨_, emitBits_eq _ c h1 h8, bitString_length _ c⟩

theorem parsed_width_in_range_witness :
    parseOk ["bin2txt".toList, "-12".toList, "-coe".toList, "f".toList] = true ∧
    1 ≤ (parseArgs ["bin2txt".toList, "-12".toList, "-coe".toList, "f".toList]).width ∧
    (parseArgs ["bin2txt".toList, "-12".toList, "-coe".toList, "f".toList]).width ≤ 8 :=
  have h := parsed_width_in_range
    ["bin2txt".toList, "-12".toList, "-coe".toList, "f".toList] (by decide)
  ⟨by decide, h.1, h.2.1⟩

/-! ## The exits of a run -/

/-- The source cannot be opened: the message of line 45 and `exit(0)`. -/
theorem main_not_found (argv : List CStr) (w : World) (hok : parseOk argv = true)
    (hin : w.files.lookup (argv.getLastD []) = none) :
    main argv w = some (0, { w with
      stdout := w.stdout ++ notFoundText (argv.getD 1 []),
      log := w.log ++ [Call.fopen (argv.getLastD []) false] }) := by
  rw [parseOk_iff] at hok
  unfold main
  simp only [if_neg hok, hin]

/-- The destination cannot be opened: the message of line 54, `fclose(in)` and
`exit(0)`. -/
theorem main_no_good (argv : List CStr) (w : World) (content : List Nat)
    (hok : parseOk argv = true)
    (hin : w.files.lookup (argv.getLastD []) = some content)
    (hlen : (argv.getLastD []).length + 4 + 1 ≤ 512)
    (hout : argv.getLastD [] ++ suffix (parseArgs argv).coe ∈ w.unwritable) :
    main argv w = some (0, { w with
      stdout := w.stdout ++ noGoodText (argv.getLastD [] ++ suffix (parseArgs argv).coe),
      log := w.log ++ [Call.fopen (argv.getLastD []) false,
        Call.fopen (argv.getLastD [] ++ suffix (parseArgs argv).coe) true,
        Call.fclose Handle.src] }) := by
  rw [parseOk_iff] at hok
  unfold main
  simp only [if_neg hok, hin, if_neg (not_lt.mpr hlen), if_pos hout]
  simp

/-- The output name does not fit `outfile[512]`: the behaviour is undefined. -/
theorem main_overflow (argv : List CStr) (w : World) (content : List Nat)
    (hok : parseOk argv = true)
    (hin : w.files.lookup (argv.getLastD []) = some content)
    (hlen : 512 < (argv.getLastD []).length + 4 + 1) :
    main argv w = none := by
  rw [parseOk_iff] at hok
  unfold main
  simp only [if_neg hok, hin, if_pos hlen]

/-- For the widths 1 to 8 the copy loop runs to the end of the input. -/
theorem copyLoop_defined (coe w : Nat) (h1 : 1 ≤ w) (h8 : w ≤ 8) (inp : List Nat) :
    ∃ text, copyLoop coe w inp = some text := by
  induction inp with
  | nil => exact ⟨[], copyLoop_nil coe w⟩
  | cons c rest ih =>
    obtain ⟨text, ht⟩ := ih
    rw [copyLoop_cons coe w c rest _ (emitBits_eq w c h1 h8), ht]
    exact ⟨_, rfl⟩

theorem transform_defined (coe w : Nat) (h1 : 1 ≤ w) (h8 : w ≤ 8) (inp : List Nat) :
    ∃ text, transform coe w inp = some text := by
  obtain ⟨text, ht⟩ := copyLoop_defined coe w h1 h8 inp
  unfold transform
  rw [ht]
  exact ⟨_, rfl⟩

/-- Every run whose behaviour is defined ends in one of four ways, each with
status 0 and with the streams it opened closed again. -/
theorem main_cases (argv : List CStr) (w : World)
    (hfit : parseOk argv = true → w.files.lookup (argv.getLastD []) ≠ none →
      (argv.getLastD []).length + 4 + 1 ≤ 512) :
    main argv w = some (0, { w with stdout := w.stdout ++ usageText }) ∨
    main argv w = some (0, { w with
      stdout := w.stdout ++ notFoundText (argv.getD 1 []),
      log := w.log ++ [Call.fopen (argv.getLastD []) false] }) ∨
    main argv w = some (0, { w with
      stdout := w.stdout ++ noGoodText (argv.getLastD [] ++ suffix (parseArgs argv).coe),
      log := w.log ++ [Call.fopen (argv.getLastD []) false,
        Call.fopen (argv.getLastD [] ++ suffix (parseArgs argv).coe) true,
        Call.fclose Handle.src] }) ∨
    ∃ text : List Char, main argv w = some (0, { w with
      files := (argv.getLastD [] ++ suffix (parseArgs argv).coe, text.map Char.toNat)
        :: w.files,
      log := w.log ++ [Call.fopen (argv.getLastD []) false,
        Call.fopen (argv.getLastD [] ++ suffix (parseArgs argv).coe) true,
        Call.fclose Handle.src, Call.fclose Handle.dst] }) := by
  cases hok : parseOk argv with
  | false =>
    left
    apply main_usage
    by_contra hn
    rw [(parseOk_iff argv).mpr hn] at hok
    exact absurd hok (by decide)
  | true =>
    right
    cases hin : w.files.lookup (argv.getLastD []) with
    | none =>
      left
      exact main_not_found argv w hok hin
    | some content =>
      right
      have hlen := hfit hok (by rw [hin]; exact Option.some_ne_none content)
      by_cases hout : argv.getLastD [] ++ suffix (parseArgs argv).coe ∈ w.unwritable
      · left
        exact main_no_good argv w content hok hin hlen hout
      · right
        obtain ⟨h1, h8⟩ := parseArgs_width_range argv hok
        obtain ⟨text, ht⟩ := transform_defined (parseArgs argv).coe _ h1 h8 content
        exact ⟨text, main_run argv w content text hok hin hlen hout ht⟩

/-- A run that ends has status 0 and leaves the set of open streams as it
found it. -/
theorem main_result (argv : List CStr) (w : World) (r : Nat × World)
    (h : main argv w = some r) : r.1 = 0 ∧ r.2.handles = w.handles := by
  by_cases hfit : parseOk argv = true → w.files.lookup (argv.getLastD []) ≠ none →
      (argv.getLastD []).length + 4 + 1 ≤ 512
  · rcases main_cases argv w hfit with h1 | h1 | h1 | ⟨text, h1⟩ <;>
      · rw [h1, Option.some.injEq] at h
        rw [← h]
        exact ⟨rfl, rfl⟩
  · rw [Classical.not_imp, Classical.not_imp] at hfit
    obtain ⟨hok, hin, hlen⟩ := hfit
    obtain ⟨content, hc⟩ := Option.ne_none_iff_exists'.mp hin
    rw [main_overflow argv w content hok hc (by omega)] at h
    exact absurd h (by simp)

/-- When the output name fits the buffer and the source opens, the second call
of the run opens its destination `path ++ suffix` for writing; the name is made
of the last argument and `coe` only. -/
theorem main_opens_destination (argv : List CStr) (w : World) (content : List Nat)
    (hok : parseOk argv = true)
    (hin : w.files.lookup (argv.getLastD []) = some content)
    (hlen : (argv.getLastD []).length + 4 + 1 ≤ 512) :
    ∃ w' rest, main argv w = some (0, w') ∧
      w'.log = w.log ++ Call.fopen (argv.getLastD []) false ::
        Call.fopen (argv.getLastD [] ++ suffix (parseArgs argv).coe) true :: rest := by
  by_cases hout : argv.getLastD [] ++ suffix (parseArgs argv).coe ∈ w.unwritable
  · exact ⟨_, _, main_no_good argv w content hok hin hlen hout, rfl⟩
  · obtain ⟨h1, h8⟩ := parseArgs_width_range argv hok
    obtain ⟨text, ht⟩ := transform_defined (parseArgs argv).coe _ h1 h8 content
    exact ⟨_, _, main_run argv w content text hok hin hlen hout ht, rfl⟩

/-- With one argument after the program name the option loop has nothing to
look at. -/
theorem parseArgs_single (prog s : CStr) : parseArgs [prog, s] = ⟨1, 0, 8⟩ := rfl

theorem parseOk_single (prog s : CStr) : parseOk [prog, s] = true := rfl

theorem lookup_single (p : CStr) (content : List Nat) :
    List.lookup p [(p, content)] = some content := by
  simp [List.lookup]

/-! ## The claims on the files -/

/-- C11, at the failing input: for an existing source whose path has 508
characters, the name with its suffix and the NUL takes 513 bytes, `strcpy` and
`strcat` write past the end of `outfile[512]` and the behaviour is undefined, so
no destination `p ++ ".txt"` is guaranteed; with 507 characters the destination
is `p ++ ".txt"`, and `-coe -4 f` writes to `f.coe`. -/
theorem output_name_overflows :
    parseOk ["bin2txt".toList, List.replicate 508 'a'] = true ∧
    main ["bin2txt".toList, List.replicate 508 'a']
        ⟨[(List.replicate 508 'a', [])], [], [], [], []⟩ = none ∧
    main ["bin2txt".toList, List.replicate 507 'a']
        ⟨[(List.replicate 507 'a', [])], [], [], [], []⟩ =
      some (0, ⟨[(List.replicate 507 'a' ++ ".txt".toList, []),
          (List.replicate 507 'a', [])], [], [], [],
        [Call.fopen (List.replicate 507 'a') false,
          Call.fopen (List.replicate 507 'a' ++ ".txt".toList) true,
          Call.fclose Handle.src, Call.fclose Handle.dst]⟩) ∧
    main ["bin2txt".toList, "-coe".toList, "-4".toList, "f".toList]
        ⟨[("f".toList, [])], [], [], [], []⟩ =
      some (0, ⟨[("f.coe".toList, coeHeader.map Char.toNat), ("f".toList, [])], [], [], [],
        [Call.fopen "f".toList false, Call.fopen "f.coe".toList true,
          Call.fclose Handle.src, Call.fclose Handle.dst]⟩) := by
  refine ⟨parseOk_single _ _, ?_, ?_, ?_⟩
  · exact main_overflow _ _ [] (parseOk_single _ _) (lookup_single _ _)
      (by rw [List.getLastD_cons, List.getLastD_cons, List.getLastD_nil,
            List.length_replicate]
          decide)
  · have ht : transform 0 8 [] = some [] := by
      simp [transform, copyLoop_nil]
    rw [main_run ["bin2txt".toList, List.replicate 507 'a'] _ [] []
      (parseOk_single _ _) (lookup_single _ _)
      (by rw [List.getLastD_cons, List.getLastD_cons, List.getLastD_nil,
            List.length_replicate])
      (List.not_mem_nil _) ht]
    rfl
  · have ht : transform 1 4 [] = some coeHeader := by
      simp [transform, copyLoop_nil]
    rw [main_run ["bin2txt".toList, "-coe".toList, "-4".toList, "f".toList] _ [] coeHeader
      (by decide) (by decide) (by decide) (by decide) ht]
    decide

/-- C12: for every invocation that passes the usage check and whose input path
cannot be opened for reading, the run prints the "not found" message and ends
with status 0; the only call on the file system is the failed `fopen` of the
source, so no destination is named or opened, and the files, the open streams
and the unwritable paths are as before. -/
theorem source_unavailable (argv : List CStr) (w : World) (hok : parseOk argv = true)
    (hin : w.files.lookup (argv.getLastD []) = none) :
    ∃ w', main argv w = some (0, w') ∧
      w'.stdout = w.stdout ++ ("File \"".toList ++ argv.getD 1 [] ++ "\" not found\n".toList) ∧
      w'.log = w.log ++ [Call.fopen (argv.getLastD []) false] ∧
      (∀ name, Call.fopen name true ∉ w'.log.drop w.log.length) ∧
      w'.files = w.files ∧ w'.handles = w.handles ∧ w'.unwritable = w.unwritable := by
  refine ⟨_, main_not_found argv w hok hin, rfl, rfl, ?_, rfl, rfl, rfl⟩
  intro name hmem
  simp at hmem

theorem source_unavailable_witness :
    parseOk ["bin2txt".toList, "-coe".toList, "missing.bin".toList] = true ∧
    List.lookup (["bin2txt".toList, "-coe".toList, "missing.bin".toList].getLastD [])
      [("other.bin".toList, [1, 2])] = none ∧
    ∃ w', main ["bin2txt".toList, "-coe".toList, "missing.bin".toList]
        ⟨[("other.bin".toList, [1, 2])], [], [], [], []⟩ = some (0, w') ∧
      w'.stdout = [] ++ ("File \"".toList ++
        ["bin2txt".toList, "-coe".toList, "missing.bin".toList].getD 1 [] ++
        "\" not found\n".toList) ∧
      w'.log = [] ++ [Call.fopen
        (["bin2txt".toList, "-coe".toList, "missing.bin".toList].getLastD []) false] ∧
      (∀ name, Call.fopen name true ∉ w'.log.drop ([] : List Call).length) ∧
      w'.files = [("other.bin".toList, [1, 2])] ∧ w'.handles = [] ∧ w'.unwritable = [] :=
  ⟨by decide, by decide,
    source_unavailable ["bin2txt".toList, "-coe".toList, "missing.bin".toList]
      ⟨[("other.bin".toList, [1, 2])], [], [], [], []⟩ (by decide) (by decide)⟩

/-- C13, at the failing input: with `-coe` and an existing source whose path
has 600 characters the output name does not fit `outfile[512]`, `strcpy`
writes past its end, the behaviour is undefined and no exit status is
guaranteed. The runs that end in the usage text, in "not found", in "no good"
and in completion all have status 0. -/
theorem exit_status_lost_on_overflow :
    main ["bin2txt".toList, "-coe".toList, List.replicate 600 'b']
        ⟨[(List.replicate 600 'b', [0xA5])], [], [], [], []⟩ = none ∧
    (main ["bin2txt".toList] ⟨[], [], [], [], []⟩).map Prod.fst = some 0 ∧
    (main ["bin2txt".toList, "f".toList] ⟨[], [], [], [], []⟩).map Prod.fst = some 0 ∧
    (main ["bin2txt".toList, "f".toList]
        ⟨[("f".toList, [0xA5])], ["f.txt".toList], [], [], []⟩).map Prod.fst = some 0 ∧
    (main ["bin2txt".toList, "f".toList]
        ⟨[("f".toList, [0xA5])], [], [], [], []⟩).map Prod.fst = some 0 := by
  refine ⟨?_, by decide, by decide, ?_, ?_⟩
  · have hok : parseOk ["bin2txt".toList, "-coe".toList, List.replicate 600 'b'] = true :=
      rfl
    exact main_overflow _ _ [0xA5] hok (lookup_single _ _)
      (by rw [List.getLastD_cons, List.getLastD_cons, List.getLastD_cons,
            List.getLastD_nil, List.length_replicate]
          decide)
  · rw [main_no_good ["bin2txt".toList, "f".toList] _ [0xA5]
      (by decide) (by decide) (by decide) (by decide)]
    rfl
  · obtain ⟨text, ht⟩ := transform_defined 0 8 (by decide) (by decide) [0xA5]
    rw [main_run ["bin2txt".toList, "f".toList] _ [0xA5] text
      (by decide) (by decide) (by decide) (by decide) ht]
    rfl

/-- C14: with exactly one argument `s` after the program name, whatever its
text, the usage check is passed with `i = 1`, `coe = 0`, `width = 8`, and the
path that is opened is `s`; with no argument the run ends with the usage text.
Whenever the usage check is passed, the first call of a run that ends opens the
last argument for reading. -/
theorem single_argument_defaults (prog s : CStr) (w : World) :
    parseOk [prog, s] = true ∧ parseArgs [prog, s] = ⟨1, 0, 8⟩ ∧
    parseArgs [prog, "-coe".toList] = ⟨1, 0, 8⟩ ∧ parseArgs [prog, "-0".toList] = ⟨1, 0, 8⟩ ∧
    (w.files.lookup s = none →
      main [prog, s] w = some (0, { w with
        stdout := w.stdout ++ notFoundText s,
        log := w.log ++ [Call.fopen s false] })) ∧
    main [prog] w = some (0, { w with stdout := w.stdout ++ usageText }) ∧
    main [] w = some (0, { w with stdout := w.stdout ++ usageText }) ∧
    (∀ argv, parseOk argv = true →
      ∃ p, argv.getLast? = some p ∧
        ∀ r, main argv w = some r → ∃ rest, r.2.log = w.log ++ Call.fopen p false :: rest) := by
  refine ⟨rfl, rfl, rfl, rfl, ?_, ?_, ?_, ?_⟩
  · intro hin
    exact main_not_found [prog, s] w (parseOk_single prog s) hin
  · exact main_usage [prog] w (Or.inl (by simp))
  · exact main_usage [] w (Or.inl (by decide))
  · intro argv hok
    have hne : argv ≠ [] := by
      intro h
      rw [h] at hok
      exact absurd hok (by decide)
    have hlast : argv.getLast? = some (argv.getLastD []) := by
      cases argv with
      | nil => exact absurd rfl hne
      | cons a t => rw [List.getLast?_cons, List.getLastD_cons, List.getLastD_eq_getLast?]
    refine ⟨argv.getLastD [], hlast, ?_⟩
    intro r hr
    cases hin : w.files.lookup (argv.getLastD []) with
    | none =>
      rw [main_not_found argv w hok hin, Option.some.injEq] at hr
      rw [← hr]
      exact ⟨[], rfl⟩
    | some content =>
      by_cases hlen : (argv.getLastD []).length + 4 + 1 ≤ 512
      · obtain ⟨w', rest, hm, hlog⟩ := main_opens_destination argv w content hok hin hlen
        rw [hm, Option.some.injEq] at hr
        rw [← hr]
        exact ⟨_, hlog⟩
      · rw [main_overflow argv w content hok hin (by omega)] at hr
        exact absurd hr (by simp)

theorem single_argument_defaults_witness :
    main ["bin2txt".toList, "-0".toList] ⟨[], [], [], [], []⟩ =
      some (0, ⟨[], [], [] ++ notFoundText "-0".toList, [],
        [] ++ [Call.fopen "-0".toList false]⟩) ∧
    ∃ p, ["bin2txt".toList, "-3".toList, "f".toList].getLast? = some p ∧
      ∀ r, main ["bin2txt".toList, "-3".toList, "f".toList] ⟨[], [], [], [], []⟩ = some r →
        ∃ rest, r.2.log = [] ++ Call.fopen p false :: rest :=
  ⟨(single_argument_defaults "bin2txt".toList "-0".toList
      ⟨[], [], [], [], []⟩).2.2.2.2.1 (by decide),
    (single_argument_defaults "bin2txt".toList "x".toList
      ⟨[], [], [], [], []⟩).2.2.2.2.2.2.2
      ["bin2txt".toList, "-3".toList, "f".toList] (by decide)⟩

/-- C15: at every terminal state of a run the set of open streams is the one
the run started with, so no stream it opened is still open. A run whose
output name fits the buffer does reach a terminal state, and the calls it made
are those of one of the four exits: none (usage); the failed `fopen` of the
source (not found); the source opened, the failed `fopen` of the destination,
then `fclose(in)` (no good); both opened, then both closed (completion). -/
theorem handles_released (argv : List CStr) (w : World) :
    (∀ r, main argv w = some r → r.2.handles = w.handles) ∧
    ((parseOk argv = true → w.files.lookup (argv.getLastD []) ≠ none →
        (argv.getLastD []).length + 4 + 1 ≤ 512) →
      ∃ w', main argv w = some (0, w') ∧ w'.handles = w.handles ∧
        (w'.log = w.log ∨
         w'.log = w.log ++ [Call.fopen (argv.getLastD []) false] ∨
         w'.log = w.log ++ [Call.fopen (argv.getLastD []) false,
           Call.fopen (argv.getLastD [] ++ suffix (parseArgs argv).coe) true,
           Call.fclose Handle.src] ∨
         w'.log = w.log ++ [Call.fopen (argv.getLastD []) false,
           Call.fopen (argv.getLastD [] ++ suffix (parseArgs argv).coe) true,
           Call.fclose Handle.src, Call.fclose Handle.dst])) ∧
    (∀ content, parseOk argv = true →
      w.files.lookup (argv.getLastD []) = some content →
      (argv.getLastD []).length + 4 + 1 ≤ 512 →
      argv.getLastD [] ++ suffix (parseArgs argv).coe ∈ w.unwritable →
      ∃ w', main argv w = some (0, w') ∧ w'.handles = w.handles ∧
        w'.log = w.log ++ [Call.fopen (argv.getLastD []) false,
          Call.fopen (argv.getLastD [] ++ suffix (parseArgs argv).coe) true,
          Call.fclose Handle.src]) := by
  refine ⟨fun r hr => (main_result argv w r hr).2, ?_, ?_⟩
  · intro hfit
    rcases main_cases argv w hfit with h | h | h | ⟨text, h⟩
    · exact ⟨_, h, rfl, Or.inl rfl⟩
    · exact ⟨_, h, rfl, Or.inr (Or.inl rfl)⟩
    · exact ⟨_, h, rfl, Or.inr (Or.inr (Or.inl rfl))⟩
    · exact ⟨_, h, rfl, Or.inr (Or.inr (Or.inr rfl))⟩
  · intro content hok hin hlen hout
    exact ⟨_, main_no_good argv w content hok hin hlen hout, rfl, rfl⟩

theorem handles_released_witness :
    ∃ w', main ["bin2txt".toList, "-coe".toList, "f".toList]
        ⟨[("f".toList, [0xA5])], ["f.coe".toList], [], [], []⟩ = some (0, w') ∧
      w'.handles = [] ∧
      w'.log = [] ++ [Call.fopen
          (["bin2txt".toList, "-coe".toList, "f".toList].getLastD []) false,
        Call.fopen (["bin2txt".toList, "-coe".toList, "f".toList].getLastD [] ++
          suffix (parseArgs ["bin2txt".toList, "-coe".toList, "f".toList]).coe) true,
        Call.fclose Handle.src] :=
  (handles_released ["bin2txt".toList, "-coe".toList, "f".toList]
    ⟨[("f".toList, [0xA5])], ["f.coe".toList], [], [], []⟩).2.2 [0xA5]
    (by decide) (by decide) (by decide) (by decide)

/-- C16: for the empty input in coe mode and any width the output is exactly
the two header lines; it holds a single `';'`, the one of the radix line, and
the vector line holds none. -/
theorem empty_input_coe (width : Nat) :
    transform 1 width [] = some (
      "memory_initialization_radix=2;\r\n".toList ++
      "memory_initialization_vector=\r\n".toList) ∧
    ("memory_initialization_radix=2;\r\n".toList ++
      "memory_initialization_vector=\r\n".toList).count ';' = 1 ∧
    "memory_initialization_radix=2;\r\n".toList.count ';' = 1 ∧
    "memory_initialization_vector=\r\n".toList.count ';' = 0 := by
  refine ⟨?_, by decide, by decide, by decide⟩
  unfold transform
  rw [copyLoop_nil]
  simp [coeHeader]

/-- C17: when the usage check is passed and the input path cannot be opened, the
text printed is `File "<a>" not found` with `a = argv[1]`, while the path that
failed to open is the last argument; the text names that path if and only if
`argv[1]` is the last argument, as it is when there are two arguments in all,
and for `-coe missing.bin` it names `-coe`. -/
theorem not_found_names_first_argument (argv : List CStr) (w : World)
    (hok : parseOk argv = true) (hin : w.files.lookup (argv.getLastD []) = none) :
    (∃ a w', argv[1]? = some a ∧ main argv w = some (0, w') ∧
      w'.stdout = w.stdout ++ ("File \"".toList ++ a ++ "\" not found\n".toList) ∧
      w'.log = w.log ++ [Call.fopen (argv.getLastD []) false] ∧
      (("File \"".toList ++ a ++ "\" not found\n".toList =
          "File \"".toList ++ argv.getLastD [] ++ "\" not found\n".toList) ↔
        a = argv.getLastD [])) ∧
    (argv.length = 2 → argv[1]? = some (argv.getLastD [])) ∧
    main ["bin2txt".toList, "-coe".toList, "missing.bin".toList] ⟨[], [], [], [], []⟩ =
      some (0, ⟨[], [], "File \"-coe\" not found\n".toList, [],
        [Call.fopen "missing.bin".toList false]⟩) := by
  have hlen : 2 ≤ argv.length := by
    rw [parseOk_iff] at hok
    omega
  have h1 : argv[1]? = some (argv.getD 1 []) := by
    rw [List.getD_eq_getElem?_getD, List.getElem?_eq_getElem (by omega)]
    rfl
  refine ⟨⟨argv.getD 1 [], _, h1, main_not_found argv w hok hin, rfl, rfl, ?_⟩, ?_, by decide⟩
  · constructor
    · intro h
      rw [List.append_assoc, List.append_assoc] at h
      exact List.append_cancel_right (List.append_cancel_left h)
    · intro h
      rw [h]
  · intro h2
    match argv, h2 with
    | [a, b], _ => rfl

theorem not_found_names_first_argument_witness :
    parseOk ["bin2txt".toList, "-4".toList, "missing.bin".toList] = true ∧
    List.lookup (["bin2txt".toList, "-4".toList, "missing.bin".toList].getLastD [])
      [("other.bin".toList, [1])] = none ∧
    ∃ a w', ["bin2txt".toList, "-4".toList, "missing.bin".toList][1]? = some a ∧
      main ["bin2txt".toList, "-4".toList, "missing.bin".toList]
        ⟨[("other.bin".toList, [1])], [], [], [], []⟩ = some (0, w') ∧
      w'.stdout = [] ++ ("File \"".toList ++ a ++ "\" not found\n".toList) ∧
      w'.log = [] ++ [Call.fopen
        (["bin2txt".toList, "-4".toList, "missing.bin".toList].getLastD []) false] ∧
      (("File \"".toList ++ a ++ "\" not found\n".toList =
          "File \"".toList ++
            ["bin2txt".toList, "-4".toList, "missing.bin".toList].getLastD [] ++
            "\" not found\n".toList) ↔
        a = ["bin2txt".toList, "-4".toList, "missing.bin".toList].getLastD []) :=
  ⟨by decide, by decide,
    (not_found_names_first_argument ["bin2txt".toList, "-4".toList, "missing.bin".toList]
      ⟨[("other.bin".toList, [1])], [], [], [], []⟩ (by decide) (by decide)).1⟩

end Bin2txt
